import Mathlib

/-!
Shallow embedding of `src/ch9/memo3/memo.go` (package `memo`): a memoizing
cache `Memo` holding a callback `f`, a mutex `mu` and a map
`cache : map[string]result`, with constructor `New` and method `Get`.

`Get` is embedded as a small-step program over explicit program counters,
one per Go statement, so that interleavings of several concurrent `Get`
calls are the schedules of the step relation:

  pc 0: `memo.mu.Lock()`
  pc 1: `res, ok := memo.cache[key]`
  pc 2: `memo.mu.Unlock()`
  pc 3: `if !ok { ... }` (branch)
  pc 4: `res.value, res.err = memo.f(key)`
  pc 5: `memo.mu.Lock()`
  pc 6: `memo.cache[key] = res`
  pc 7: `memo.mu.Unlock()`
  pc 8: `memo.mu.Unlock()`   (the unconditional trailing unlock in the source)
  pc 9: `return res.value, res.err`
  pc 10: returned

The mutex is modelled as in Go's `sync.Mutex`: it has no owner check, any
goroutine may unlock it, and unlocking an unlocked mutex is a fatal,
unrecoverable runtime error (modelled by the `panicked` flag, which freezes
the whole configuration, like a Go fatal error aborting the process).
A ghost `owner` field records which thread performed the `Lock` that is
currently in force, for stating lock-discipline properties.

The callback `f` (Go type `Func = func(key string) (interface{}, error)`)
is modelled as a function of the global invocation count and the key, so
that an impure callback whose successive invocations differ is expressible;
a pure callback is the special case that ignores the invocation count.
`interface{}` and `error` values are modelled as `Option α` / `Option ε`
(`none` is Go `nil`). The Go map is modelled as an association list with
at most one live binding per key (`lookup` finds the first binding,
`store` replaces in place or appends).
-/

namespace memo

/-- Go `result` struct: `value interface{}; err error` (`none` = `nil`). -/
structure Res (α ε : Type) where
  value : Option α
  err : Option ε
deriving DecidableEq, Repr

/-- Go `Func`, invocation-indexed: `f n key` is what the `n`-th invocation
(counting all invocations on this cache, from 0) of the callback returns on
`key`. A pure callback ignores `n`. -/
def Func (α ε : Type) : Type := Nat → String → Res α ε

/-- A pure (deterministic) callback: every invocation returns `g key`. -/
def pureFunc {α ε : Type} (g : String → Res α ε) : Func α ε := fun _ key => g key

/-- The Go map `map[string]result`, as an association list. -/
abbrev Cache (α ε : Type) : Type := List (String × Res α ε)

/-- Go map read `memo.cache[key]`: `some r` when present (`ok = true`). -/
def lookup {α ε : Type} : Cache α ε → String → Option (Res α ε)
  | [], _ => none
  | (k, r) :: rest, key => if k = key then some r else lookup rest key

/-- Go map write `memo.cache[key] = res`: replace the binding in place,
or append a new one. -/
def store {α ε : Type} : Cache α ε → String → Res α ε → Cache α ε
  | [], key, r => [(key, r)]
  | (k, r') :: rest, key, r =>
      if k = key then (k, r) :: rest else (k, r') :: store rest key r

/-- Go `Memo` struct (the mutex's state lives in `Config`). -/
structure Memo (α ε : Type) where
  f : Func α ε
  cache : Cache α ε

/-- Go `New`: `&Memo{f: f, cache: make(map[string]result)}`. -/
def New {α ε : Type} (f : Func α ε) : Memo α ε := ⟨f, []⟩

/-- One goroutine executing `Get(key)`: its program counter, the local
variables `res` (Go zero value `⟨none, none⟩` before assignment) and `ok`,
the returned pair once pc 9 has executed, and a ghost per-thread count of
its own invocations of `f`. -/
structure Thread (α ε : Type) where
  key : String
  pc : Nat
  res : Res α ε
  ok : Bool
  retVal : Option (Res α ε)
  myCalls : Nat
deriving DecidableEq, Repr

/-- A goroutine at the start of `Get(key)`. -/
def mkThread {α ε : Type} (key : String) : Thread α ε :=
  ⟨key, 0, ⟨none, none⟩, false, none, 0⟩

/-- Global configuration: the `Memo`, the mutex state (`locked`, with ghost
`owner` recording who locked it), the log of keys passed to the callback
invocations so far (its length is the global invocation count), the fatal
flag `panicked` (unlock of an unlocked mutex), and the goroutines. -/
structure Config (α ε : Type) where
  memo : Memo α ε
  locked : Bool
  owner : Option Nat
  log : List String
  panicked : Bool
  threads : List (Thread α ε)

/-- Initial configuration: the given `Memo` with its mutex free, no
invocations yet, and one goroutine entering `Get key` for each listed key. -/
def startConfig {α ε : Type} (m : Memo α ε) (keys : List String) : Config α ε :=
  ⟨m, false, none, [], false, keys.map mkThread⟩

/-- Go statement `memo.mu.Lock()` executed by thread `i` in state `t`:
blocks (a no-op step) while the mutex is held by anyone; otherwise acquires
it, recording the ghost owner, and advances to `pcNext`. -/
def doLock {α ε : Type} (cfg : Config α ε) (i : Nat) (t : Thread α ε)
    (pcNext : Nat) : Config α ε :=
  if cfg.locked then cfg
  else { cfg with locked := true, owner := some i,
                  threads := cfg.threads.set i { t with pc := pcNext } }

/-- Go statement `memo.mu.Unlock()`: Go's `sync.Mutex` has no owner check,
so any goroutine's unlock succeeds while the mutex is held; unlocking an
unlocked mutex is the fatal `sync: unlock of unlocked mutex` runtime
error. -/
def doUnlock {α ε : Type} (cfg : Config α ε) (i : Nat) (t : Thread α ε)
    (pcNext : Nat) : Config α ε :=
  if cfg.locked then
    { cfg with locked := false, owner := none,
               threads := cfg.threads.set i { t with pc := pcNext } }
  else { cfg with panicked := true }

/-- Go statement `res, ok := memo.cache[key]` (on a miss, `res` keeps Go's
zero value). -/
def doLookup {α ε : Type} (cfg : Config α ε) (i : Nat) (t : Thread α ε) : Config α ε :=
  match lookup cfg.memo.cache t.key with
  | some r => { cfg with threads := cfg.threads.set i { t with res := r, ok := true, pc := 2 } }
  | none => { cfg with threads := cfg.threads.set i { t with ok := false, pc := 2 } }

/-- Go statement `if !ok ...`: a hit skips to the trailing unlock (pc 8),
a miss enters the body (pc 4). -/
def doBranch {α ε : Type} (cfg : Config α ε) (i : Nat) (t : Thread α ε) : Config α ε :=
  { cfg with threads := cfg.threads.set i { t with pc := if t.ok then 8 else 4 } }

/-- Go statement `res.value, res.err = memo.f(key)`: the invocation gets
the current global invocation index (the log's length) and is appended to
the log. -/
def doCall {α ε : Type} (cfg : Config α ε) (i : Nat) (t : Thread α ε) : Config α ε :=
  { cfg with log := cfg.log ++ [t.key],
             threads := cfg.threads.set i
               { t with res := cfg.memo.f cfg.log.length t.key,
                        myCalls := t.myCalls + 1, pc := 5 } }

/-- Go statement `memo.cache[key] = res`. -/
def doStore {α ε : Type} (cfg : Config α ε) (i : Nat) (t : Thread α ε) : Config α ε :=
  { cfg with memo := { cfg.memo with cache := store cfg.memo.cache t.key t.res },
             threads := cfg.threads.set i { t with pc := 7 } }

/-- Go statement `return res.value, res.err`. -/
def doReturn {α ε : Type} (cfg : Config α ε) (i : Nat) (t : Thread α ε) : Config α ε :=
  { cfg with threads := cfg.threads.set i { t with retVal := some t.res, pc := 10 } }

/-- Execute the one Go statement of `Get` that thread `i` (with current
thread state `t`) is at. See the pc table in the header comment. -/
def getStep {α ε : Type} (cfg : Config α ε) (i : Nat) (t : Thread α ε) : Config α ε :=
  if t.pc = 0 then doLock cfg i t 1
  else if t.pc = 1 then doLookup cfg i t
  else if t.pc = 2 then doUnlock cfg i t 3
  else if t.pc = 3 then doBranch cfg i t
  else if t.pc = 4 then doCall cfg i t
  else if t.pc = 5 then doLock cfg i t 6
  else if t.pc = 6 then doStore cfg i t
  else if t.pc = 7 then doUnlock cfg i t 8
  else if t.pc = 8 then doUnlock cfg i t 9
  else if t.pc = 9 then doReturn cfg i t
  else cfg

/-- Scheduler step: run thread `i` for one statement. After a fatal mutex
misuse the process is dead, so every step is a no-op. -/
def stepThread {α ε : Type} (cfg : Config α ε) (i : Nat) : Config α ε :=
  if cfg.panicked then cfg
  else
    match cfg.threads[i]? with
    | none => cfg
    | some t => getStep cfg i t

/-- Run a schedule (a list of thread indices, each meaning "this thread
takes its next enabled statement"). -/
def run {α ε : Type} (cfg : Config α ε) (sched : List Nat) : Config α ε :=
  sched.foldl stepThread cfg

/-- The pair returned by thread `i`'s `Get`, once it has returned. -/
def retOf {α ε : Type} (cfg : Config α ε) (i : Nat) : Option (Res α ε) :=
  cfg.threads[i]?.bind Thread.retVal

/-- The key thread `i` is calling `Get` on. -/
def keyOf {α ε : Type} (cfg : Config α ε) (i : Nat) : Option String :=
  cfg.threads[i]?.map Thread.key

/-- A schedule long enough to drive a single sequential `Get` call to its
end (the call aborts at pc 8, so later entries are no-ops). -/
def seqSched : List Nat := [0, 0, 0, 0, 0, 0, 0, 0, 0, 0]

/-- A concrete impure callback: its `n`-th invocation returns value `n`
(and a `nil` error), so distinct invocations are distinguishable. -/
def countFunc : Func Nat Nat := fun n _ => ⟨some n, none⟩

/-- A concrete pure callback: every invocation returns `(7, nil)`. -/
def const7 : String → Res Nat Nat := fun _ => ⟨some 7, none⟩

/-- A concrete callback returning Go `(nil, nil)` on every invocation. -/
def nilFunc : Func Nat Nat := fun _ _ => ⟨none, none⟩

/-- A `Memo` whose cache already maps `"x"` to `(42, nil)`. -/
def cachedMemo : Memo Nat Nat := ⟨countFunc, [("x", ⟨some 42, none⟩)]⟩

/-- Two goroutines both calling `Get "k"`: both take the lookup (steps
0,1,2 each), both miss, then both run the branch and the callback
(steps 3,4 each). -/
def raceSched : List Nat := [0, 0, 0, 1, 1, 1, 0, 0, 1, 1]

/-- Four goroutines all calling `Get "k"` on a fresh cache. -/
def race4 : Config Nat Nat := startConfig (New countFunc) ["k", "k", "k", "k"]

/-- Threads 0 and 1 both miss and both invoke the callback, then thread 0
stores its result (steps 5,6,7). -/
def overwriteSched : List Nat := [0, 0, 0, 1, 1, 1, 0, 0, 1, 1, 0, 0, 0]

/-- Continuation of `overwriteSched`: thread 2 takes the mutex (step 0),
thread 0's trailing extra unlock (step 8) therefore succeeds — Go's mutex
has no owner check — and thread 0 returns (step 9); thread 1 then stores
its own, different result (steps 5,6,7), thread 3 takes the mutex, and
thread 1's trailing unlock also succeeds, so thread 1 returns as well. -/
def stealSched : List Nat :=
  overwriteSched ++ [2, 0, 0, 1, 1, 1, 3, 1, 1]

/-- Bookkeeping invariant behind the at-most-one-invocation-per-call bound:
the invocation log's length is the sum of the per-thread invocation
counters, and a thread's counter is 0 before it has passed the callback
statement (pc 4) and never exceeds 1. -/
def CallInv {α ε : Type} (cfg : Config α ε) : Prop :=
  cfg.log.length = (cfg.threads.map Thread.myCalls).sum ∧
  ∀ u ∈ cfg.threads, u.myCalls ≤ 1 ∧ (u.pc ≤ 4 → u.myCalls = 0)

/-- Ghost-lock discipline: a free mutex has no recorded owner, and the
recorded owner is always a thread inside one of `Get`'s two critical
sections (pc 1-2: the lookup, between the first `Lock` and its `Unlock`;
pc 6-7: the store, between the second `Lock` and its `Unlock`). -/
def LockInv {α ε : Type} (cfg : Config α ε) : Prop :=
  (cfg.locked = false → cfg.owner = none) ∧
  ∀ i, cfg.owner = some i → ∃ t, cfg.threads[i]? = some t ∧
    (t.pc = 1 ∨ t.pc = 2 ∨ t.pc = 6 ∨ t.pc = 7)

/-- With a pure callback `g`, every cached pair, every thread-local `res`
that was read from the cache (`ok = true`) or produced by the callback
(pc ≥ 5), and every returned pair equal the callback's value for the
corresponding key. -/
def PureInv {α ε : Type} (g : String → Res α ε) (cfg : Config α ε) : Prop :=
  cfg.memo.f = pureFunc g ∧
  (∀ p ∈ cfg.memo.cache, p.2 = g p.1) ∧
  ∀ u ∈ cfg.threads,
    (u.ok = true → u.res = g u.key) ∧
    (5 ≤ u.pc → u.res = g u.key) ∧
    (∀ r, u.retVal = some r → r = g u.key)

theorem lookup_store_self {α ε : Type} (c : Cache α ε) (k : String) (r : Res α ε) :
    lookup (store c k r) k = some r := by
  induction c with
  | nil => simp [store, lookup]
  | cons p rest ih =>
    obtain ⟨a, b⟩ := p
    by_cases hak : a = k
    · subst hak; simp [store, lookup]
    · simp [store, hak, lookup, ih]

theorem lookup_store_ne {α ε : Type} (c : Cache α ε) (k k' : String) (r : Res α ε)
    (h : k ≠ k') : lookup (store c k r) k' = lookup c k' := by
  induction c with
  | nil => simp [store, lookup, h]
  | cons p rest ih =>
    obtain ⟨a, b⟩ := p
    by_cases hak : a = k
    · subst hak; simp [store, lookup, h]
    · simp [store, hak, lookup, ih]

theorem mem_store {α ε : Type} {c : Cache α ε} {k : String} {r : Res α ε}
    {p : String × Res α ε} (hp : p ∈ store c k r) : p ∈ c ∨ p = (k, r) := by
  induction c with
  | nil => simp [store] at hp; right; simpa using hp
  | cons q rest ih =>
    obtain ⟨a, b⟩ := q
    by_cases hak : a = k
    · subst hak
      simp [store] at hp
      rcases hp with h1 | h1
      · right; simp [h1]
      · left; simp [h1]
    · simp [store, hak] at hp
      rcases hp with h1 | h1
      · left; simp [h1]
      · rcases ih h1 with h2 | h2
        · left; simp [h2]
        · right; exact h2

theorem lookup_eq_of_forall {α ε : Type} {g : String → Res α ε} {c : Cache α ε}
    (hc : ∀ p ∈ c, p.2 = g p.1) {key : String} {r : Res α ε}
    (h : lookup c key = some r) : r = g key := by
  induction c with
  | nil => simp [lookup] at h
  | cons q rest ih =>
    obtain ⟨a, b⟩ := q
    by_cases hak : a = key
    · subst hak
      simp [lookup] at h
      have hb := hc (a, b) (by simp)
      simp at hb
      rw [← h, hb]
    · simp [lookup, hak] at h
      exact ih (fun p hp => hc p (by simp [hp])) h

theorem sum_map_set {α ε : Type} (l : List (Thread α ε)) (i : Nat)
    (t t' : Thread α ε) (h : l[i]? = some t) :
    ((l.set i t').map Thread.myCalls).sum + t.myCalls
      = (l.map Thread.myCalls).sum + t'.myCalls := by
  induction l generalizing i with
  | nil => simp at h
  | cons a rest ih =>
    cases i with
    | zero =>
      simp at h; subst h
      show ((t' :: rest).map Thread.myCalls).sum + _ = _
      simp only [List.map_cons, List.sum_cons]
      omega
    | succ n =>
      simp at h
      have hih := ih n h
      show ((a :: rest.set n t').map Thread.myCalls).sum + t.myCalls = _
      simp only [List.map_cons, List.sum_cons]
      omega

theorem callInv_preserve {α ε : Type} {cfg cfg' : Config α ε} {i : Nat}
    {t t' : Thread α ε}
    (ht : cfg.threads[i]? = some t) (h : CallInv cfg)
    (hlog : cfg'.log = cfg.log) (hthreads : cfg'.threads = cfg.threads.set i t')
    (hmy : t'.myCalls = t.myCalls) (hpc : t'.pc ≤ 4 → t.pc ≤ 4) :
    CallInv cfg' := by
  obtain ⟨hlen, hth⟩ := h
  obtain ⟨hle, hz⟩ := hth t (List.getElem?_mem ht)
  constructor
  · rw [hlog, hthreads]
    have hs := sum_map_set cfg.threads i t t' ht
    omega
  · rw [hthreads]
    intro u hu
    rcases List.mem_or_eq_of_mem_set hu with h1 | h1
    · exact hth u h1
    · subst h1
      exact ⟨hmy ▸ hle, fun hp => hmy.trans (hz (hpc hp))⟩

theorem callInv_doLock {α ε : Type} {cfg : Config α ε} {i : Nat} {t : Thread α ε}
    (ht : cfg.threads[i]? = some t) (h : CallInv cfg) (pcNext : Nat)
    (hpc : pcNext ≤ 4 → t.pc ≤ 4) : CallInv (doLock cfg i t pcNext) := by
  unfold doLock
  split
  · exact h
  · exact callInv_preserve ht h rfl rfl rfl hpc

theorem callInv_doUnlock {α ε : Type} {cfg : Config α ε} {i : Nat} {t : Thread α ε}
    (ht : cfg.threads[i]? = some t) (h : CallInv cfg) (pcNext : Nat)
    (hpc : pcNext ≤ 4 → t.pc ≤ 4) : CallInv (doUnlock cfg i t pcNext) := by
  unfold doUnlock
  split
  · exact callInv_preserve ht h rfl rfl rfl hpc
  · exact h

theorem callInv_doLookup {α ε : Type} {cfg : Config α ε} {i : Nat} {t : Thread α ε}
    (ht : cfg.threads[i]? = some t) (h : CallInv cfg)
    (hpc : t.pc ≤ 4) : CallInv (doLookup cfg i t) := by
  unfold doLookup
  split
  · exact callInv_preserve ht h rfl rfl rfl (fun _ => hpc)
  · exact callInv_preserve ht h rfl rfl rfl (fun _ => hpc)

theorem callInv_doBranch {α ε : Type} {cfg : Config α ε} {i : Nat} {t : Thread α ε}
    (ht : cfg.threads[i]? = some t) (h : CallInv cfg)
    (hpc : t.pc ≤ 4) : CallInv (doBranch cfg i t) :=
  callInv_preserve ht h rfl rfl rfl (fun _ => hpc)

theorem callInv_doCall {α ε : Type} {cfg : Config α ε} {i : Nat} {t : Thread α ε}
    (ht : cfg.threads[i]? = some t) (h : CallInv cfg)
    (hpc : t.pc ≤ 4) : CallInv (doCall cfg i t) := by
  obtain ⟨hlen, hth⟩ := h
  obtain ⟨hle, hz⟩ := hth t (List.getElem?_mem ht)
  have hz0 : t.myCalls = 0 := hz hpc
  constructor
  · show (cfg.log ++ [t.key]).length
        = ((cfg.threads.set i
            { t with res := cfg.memo.f cfg.log.length t.key,
                     myCalls := t.myCalls + 1, pc := 5 }).map Thread.myCalls).sum
    have hs : ((cfg.threads.set i
            { t with res := cfg.memo.f cfg.log.length t.key,
                     myCalls := t.myCalls + 1, pc := 5 }).map Thread.myCalls).sum
            + t.myCalls
        = (cfg.threads.map Thread.myCalls).sum + (t.myCalls + 1) :=
      sum_map_set cfg.threads i t _ ht
    simp only [List.length_append, List.length_cons, List.length_nil]
    omega
  · intro u hu
    rcases List.mem_or_eq_of_mem_set hu with h1 | h1
    · exact hth u h1
    · subst h1
      simp [hz0]

theorem callInv_doStore {α ε : Type} {cfg : Config α ε} {i : Nat} {t : Thread α ε}
    (ht : cfg.threads[i]? = some t) (h : CallInv cfg) : CallInv (doStore cfg i t) :=
  callInv_preserve ht h rfl rfl rfl (fun hp => by change 7 <= 4 at hp; omega)

theorem callInv_doReturn {α ε : Type} {cfg : Config α ε} {i : Nat} {t : Thread α ε}
    (ht : cfg.threads[i]? = some t) (h : CallInv cfg) : CallInv (doReturn cfg i t) :=
  callInv_preserve ht h rfl rfl rfl (fun hp => by change 10 <= 4 at hp; omega)

set_option maxHeartbeats 1000000 in
theorem callInv_step {α ε : Type} (cfg : Config α ε) (i : Nat) (h : CallInv cfg) :
    CallInv (stepThread cfg i) := by
  unfold stepThread
  split
  · exact h
  split
  · exact h
  rename_i t ht
  unfold getStep
  split_ifs with h0 h1 h2 h3 h4 h5 h6 h7 h8 h9
  · exact callInv_doLock ht h 1 (fun _ => by omega)
  · exact callInv_doLookup ht h (by omega)
  · exact callInv_doUnlock ht h 3 (fun _ => by omega)
  · exact callInv_doBranch ht h (by omega)
  · exact callInv_doCall ht h (by omega)
  · exact callInv_doLock ht h 6 (fun hp => by omega)
  · exact callInv_doStore ht h
  · exact callInv_doUnlock ht h 8 (fun hp => by omega)
  · exact callInv_doUnlock ht h 9 (fun hp => by omega)
  · exact callInv_doReturn ht h
  · exact h

theorem callInv_run {α ε : Type} (cfg : Config α ε) (sched : List Nat)
    (h : CallInv cfg) : CallInv (run cfg sched) := by
  induction sched generalizing cfg with
  | nil => exact h
  | cons j rest ih => exact ih (stepThread cfg j) (callInv_step cfg j h)

theorem sum_le_length {α ε : Type} (l : List (Thread α ε))
    (h : ∀ u ∈ l, u.myCalls ≤ 1) : (l.map Thread.myCalls).sum ≤ l.length := by
  induction l with
  | nil => simp
  | cons a rest ih =>
    simp only [List.map_cons, List.sum_cons, List.length_cons]
    have ha := h a (by simp)
    have hr := ih (fun u hu => h u (by simp [hu]))
    omega

set_option maxHeartbeats 1000000 in
/-- A step leaves the thread list unchanged or updates one slot. -/
theorem stepThread_threads_shape {α ε : Type} (cfg : Config α ε) (i : Nat) :
    (stepThread cfg i).threads = cfg.threads ∨
    ∃ t t', cfg.threads[i]? = some t ∧
      (stepThread cfg i).threads = cfg.threads.set i t' ∧ t'.key = t.key := by
  unfold stepThread
  split
  · left; rfl
  split
  · left; rfl
  rename_i t ht
  unfold getStep
  split_ifs
  · unfold doLock; split
    · left; rfl
    · right; exact ⟨_, _, ht, rfl, rfl⟩
  · unfold doLookup; split
    · right; exact ⟨_, _, ht, rfl, rfl⟩
    · right; exact ⟨_, _, ht, rfl, rfl⟩
  · unfold doUnlock; split
    · right; exact ⟨_, _, ht, rfl, rfl⟩
    · left; rfl
  · right; exact ⟨_, _, ht, rfl, rfl⟩
  · right; exact ⟨_, _, ht, rfl, rfl⟩
  · unfold doLock; split
    · left; rfl
    · right; exact ⟨_, _, ht, rfl, rfl⟩
  · right; exact ⟨_, _, ht, rfl, rfl⟩
  · unfold doUnlock; split
    · right; exact ⟨_, _, ht, rfl, rfl⟩
    · left; rfl
  · unfold doUnlock; split
    · right; exact ⟨_, _, ht, rfl, rfl⟩
    · left; rfl
  · right; exact ⟨_, _, ht, rfl, rfl⟩
  · left; rfl

theorem stepThread_threads_length {α ε : Type} (cfg : Config α ε) (i : Nat) :
    (stepThread cfg i).threads.length = cfg.threads.length := by
  rcases stepThread_threads_shape cfg i with h | ⟨t, t', ht, h, hkey⟩ <;> simp [h]

theorem run_threads_length {α ε : Type} (cfg : Config α ε) (sched : List Nat) :
    (run cfg sched).threads.length = cfg.threads.length := by
  induction sched generalizing cfg with
  | nil => rfl
  | cons j rest ih => exact (ih (stepThread cfg j)).trans (stepThread_threads_length cfg j)

theorem callInv_start {α ε : Type} (m : Memo α ε) (keys : List String) :
    CallInv (startConfig m keys) := by
  constructor
  · show (0:Nat) = ((keys.map mkThread).map Thread.myCalls).sum
    induction keys with
    | nil => rfl
    | cons a rest ih => simpa [mkThread] using ih
  · intro u hu
    simp only [startConfig] at hu
    rcases List.mem_map.mp hu with ⟨k, _, rfl⟩
    simp [mkThread]

theorem lockInv_set {α ε : Type} {cfg cfg' : Config α ε} {j : Nat}
    {t t' : Thread α ε}
    (ht : cfg.threads[j]? = some t) (h : LockInv cfg)
    (hpc : (t.pc = 1 ∨ t.pc = 2 ∨ t.pc = 6 ∨ t.pc = 7) →
           (t'.pc = 1 ∨ t'.pc = 2 ∨ t'.pc = 6 ∨ t'.pc = 7))
    (hlk : cfg'.locked = cfg.locked) (how : cfg'.owner = cfg.owner)
    (hth : cfg'.threads = cfg.threads.set j t') : LockInv cfg' := by
  obtain ⟨h1, h2⟩ := h
  constructor
  · intro hf; rw [hlk] at hf; rw [how]; exact h1 hf
  · intro i hi
    rw [how] at hi
    obtain ⟨u, hu, hupc⟩ := h2 i hi
    rw [hth]
    by_cases hij : i = j
    · subst hij
      rw [ht] at hu
      obtain rfl : u = t := (Option.some.inj hu).symm
      have hlt : i < cfg.threads.length := (List.getElem?_eq_some_iff.mp ht).1
      exact ⟨t', List.getElem?_set_self hlt, hpc hupc⟩
    · refine ⟨u, ?_, hupc⟩
      rw [List.getElem?_set_ne (fun hh => hij hh.symm)]
      exact hu

theorem lockInv_doLock {α ε : Type} {cfg : Config α ε} {j : Nat} {t : Thread α ε}
    (ht : cfg.threads[j]? = some t) (h : LockInv cfg) (pcNext : Nat)
    (hn : pcNext = 1 ∨ pcNext = 6) : LockInv (doLock cfg j t pcNext) := by
  obtain ⟨h1, h2⟩ := h
  unfold doLock
  split
  · exact ⟨h1, h2⟩
  · constructor
    · intro hf; simp at hf
    · intro i hi
      simp only at hi
      obtain rfl : j = i := Option.some.inj hi
      have hlt : j < cfg.threads.length := (List.getElem?_eq_some_iff.mp ht).1
      refine ⟨{ t with pc := pcNext }, List.getElem?_set_self hlt, ?_⟩
      rcases hn with hh | hh
      · exact Or.inl (by simp [hh])
      · exact Or.inr (Or.inr (Or.inl (by simp [hh])))

theorem lockInv_doUnlock {α ε : Type} {cfg : Config α ε} {j : Nat} {t : Thread α ε}
    (h : LockInv cfg) (pcNext : Nat) : LockInv (doUnlock cfg j t pcNext) := by
  obtain ⟨h1, h2⟩ := h
  unfold doUnlock
  split
  · constructor
    · intro _; rfl
    · intro i hi; simp at hi
  · exact ⟨h1, h2⟩

set_option maxHeartbeats 1000000 in
theorem lockInv_step {α ε : Type} (cfg : Config α ε) (i : Nat) (h : LockInv cfg) :
    LockInv (stepThread cfg i) := by
  unfold stepThread
  split
  · exact h
  split
  · exact h
  rename_i t ht
  unfold getStep
  split_ifs with h0 h1 h2 h3 h4 h5 h6 h7 h8 h9
  · exact lockInv_doLock ht h 1 (Or.inl rfl)
  · unfold doLookup
    split
    · exact lockInv_set ht h (fun _ => Or.inr (Or.inl rfl)) rfl rfl rfl
    · exact lockInv_set ht h (fun _ => Or.inr (Or.inl rfl)) rfl rfl rfl
  · exact lockInv_doUnlock h 3
  · exact lockInv_set ht h (fun hc => by rcases hc with hh|hh|hh|hh <;> omega) rfl rfl rfl
  · exact lockInv_set ht h (fun hc => by rcases hc with hh|hh|hh|hh <;> omega) rfl rfl rfl
  · exact lockInv_doLock ht h 6 (Or.inr rfl)
  · exact lockInv_set ht h (fun _ => Or.inr (Or.inr (Or.inr rfl))) rfl rfl rfl
  · exact lockInv_doUnlock h 8
  · exact lockInv_doUnlock h 9
  · exact lockInv_set ht h (fun hc => by rcases hc with hh|hh|hh|hh <;> omega) rfl rfl rfl
  · exact h

theorem lockInv_run {α ε : Type} (cfg : Config α ε) (sched : List Nat)
    (h : LockInv cfg) : LockInv (run cfg sched) := by
  induction sched generalizing cfg with
  | nil => exact h
  | cons j rest ih => exact ih (stepThread cfg j) (lockInv_step cfg j h)

theorem lockInv_start {α ε : Type} (m : Memo α ε) (keys : List String) :
    LockInv (startConfig m keys) := by
  constructor
  · intro _; rfl
  · intro i hi; simp [startConfig] at hi

theorem pureInv_set {α ε : Type} {g : String → Res α ε} {cfg cfg' : Config α ε}
    {j : Nat} (t' : Thread α ε)
    (h : PureInv g cfg)
    (hm : cfg'.memo = cfg.memo) (hth2 : cfg'.threads = cfg.threads.set j t')
    (hok : t'.ok = true → t'.res = g t'.key)
    (hpc5 : 5 ≤ t'.pc → t'.res = g t'.key)
    (hret : ∀ r, t'.retVal = some r → r = g t'.key) :
    PureInv g cfg' := by
  obtain ⟨hf, hc, hth⟩ := h
  refine ⟨by rw [hm]; exact hf, by rw [hm]; exact hc, ?_⟩
  rw [hth2]
  intro u hu
  rcases List.mem_or_eq_of_mem_set hu with h1 | h1
  · exact hth u h1
  · subst h1; exact ⟨hok, hpc5, hret⟩

set_option maxHeartbeats 1000000 in
theorem pureInv_step {α ε : Type} (g : String → Res α ε) (cfg : Config α ε)
    (i : Nat) (h : PureInv g cfg) : PureInv g (stepThread cfg i) := by
  obtain ⟨hf, hc, hth⟩ := h
  unfold stepThread
  split
  · exact ⟨hf, hc, hth⟩
  split
  · exact ⟨hf, hc, hth⟩
  rename_i t ht
  obtain ⟨tok, tpc5, tret⟩ := hth t (List.getElem?_mem ht)
  unfold getStep
  split_ifs with h0 h1 h2 h3 h4 h5 h6 h7 h8 h9
  · unfold doLock
    split
    · exact ⟨hf, hc, hth⟩
    · exact pureInv_set { t with pc := 1 } ⟨hf, hc, hth⟩ rfl rfl tok
        (fun hp => by change 5 ≤ 1 at hp; exact absurd hp (by decide)) tret
  · unfold doLookup
    split
    · rename_i r heq
      exact pureInv_set { t with res := r, ok := true, pc := 2 } ⟨hf, hc, hth⟩ rfl rfl
        (fun _ => lookup_eq_of_forall hc heq)
        (fun hp => by change 5 ≤ 2 at hp; exact absurd hp (by decide))
        tret
    · exact pureInv_set { t with ok := false, pc := 2 } ⟨hf, hc, hth⟩ rfl rfl
        (fun hcon => by change false = true at hcon; exact Bool.noConfusion hcon)
        (fun hp => by change 5 ≤ 2 at hp; exact absurd hp (by decide))
        tret
  · unfold doUnlock
    split
    · exact pureInv_set { t with pc := 3 } ⟨hf, hc, hth⟩ rfl rfl tok
        (fun hp => by change 5 ≤ 3 at hp; exact absurd hp (by decide)) tret
    · exact ⟨hf, hc, hth⟩
  · refine pureInv_set { t with pc := if t.ok then 8 else 4 } ⟨hf, hc, hth⟩ rfl rfl tok ?_ tret
    intro hp
    cases htok : t.ok with
    | true => exact tok htok
    | false =>
        rw [htok] at hp
        change 5 ≤ 4 at hp
        exact absurd hp (by decide)
  · refine pureInv_set
      { t with res := cfg.memo.f cfg.log.length t.key,
               myCalls := t.myCalls + 1, pc := 5 } ⟨hf, hc, hth⟩ rfl rfl
      (fun _ => ?_) (fun _ => ?_) tret
    · show cfg.memo.f cfg.log.length t.key = g t.key
      rw [hf]; rfl
    · show cfg.memo.f cfg.log.length t.key = g t.key
      rw [hf]; rfl
  · unfold doLock
    split
    · exact ⟨hf, hc, hth⟩
    · exact pureInv_set { t with pc := 6 } ⟨hf, hc, hth⟩ rfl rfl tok
        (fun _ => tpc5 (by omega)) tret
  · refine ⟨hf, ?_, ?_⟩
    · show ∀ p ∈ store cfg.memo.cache t.key t.res, p.2 = g p.1
      intro p hp
      rcases mem_store hp with h1 | h1
      · exact hc p h1
      · subst h1
        exact tpc5 (by omega)
    · show ∀ u ∈ cfg.threads.set i { t with pc := 7 }, _
      intro u hu
      rcases List.mem_or_eq_of_mem_set hu with h1 | h1
      · exact hth u h1
      · subst h1
        exact ⟨tok, fun _ => tpc5 (by omega), tret⟩
  · unfold doUnlock
    split
    · exact pureInv_set { t with pc := 8 } ⟨hf, hc, hth⟩ rfl rfl tok
        (fun _ => tpc5 (by omega)) tret
    · exact ⟨hf, hc, hth⟩
  · unfold doUnlock
    split
    · exact pureInv_set { t with pc := 9 } ⟨hf, hc, hth⟩ rfl rfl tok
        (fun _ => tpc5 (by omega)) tret
    · exact ⟨hf, hc, hth⟩
  · refine pureInv_set { t with retVal := some t.res, pc := 10 } ⟨hf, hc, hth⟩ rfl rfl tok
      (fun _ => tpc5 (by omega)) ?_
    intro r hr
    obtain rfl : r = t.res := (Option.some.inj hr).symm
    exact tpc5 (by omega)
  · exact ⟨hf, hc, hth⟩

theorem pureInv_run {α ε : Type} (g : String → Res α ε) (cfg : Config α ε)
    (sched : List Nat) (h : PureInv g cfg) : PureInv g (run cfg sched) := by
  induction sched generalizing cfg with
  | nil => exact h
  | cons j rest ih => exact ih (stepThread cfg j) (pureInv_step g cfg j h)

theorem pureInv_start {α ε : Type} (g : String → Res α ε) (keys : List String) :
    PureInv g (startConfig (New (pureFunc g)) keys) := by
  refine ⟨rfl, by simp [startConfig, New], ?_⟩
  intro u hu
  rcases List.mem_map.mp hu with ⟨k, _, rfl⟩
  refine ⟨?_, ?_, ?_⟩
  · intro hcon
    change false = true at hcon
    exact Bool.noConfusion hcon
  · intro hcon
    change 5 ≤ 0 at hcon
    exact absurd hcon (by decide)
  · intro r hr
    change none = some r at hr
    exact Option.noConfusion hr

set_option maxHeartbeats 1000000 in
/-- A step leaves the `Memo` unchanged, except that the store statement
(pc 6) writes the stepping thread's `res` — a thread past the callback —
at that thread's key. -/
theorem stepThread_memo_shape {α ε : Type} (cfg : Config α ε) (i : Nat) :
    (stepThread cfg i).memo = cfg.memo ∨
    ∃ t, cfg.threads[i]? = some t ∧ 5 ≤ t.pc ∧
      (stepThread cfg i).memo
        = { cfg.memo with cache := store cfg.memo.cache t.key t.res } := by
  unfold stepThread
  split
  · left; rfl
  split
  · left; rfl
  rename_i t ht
  unfold getStep
  split_ifs with h0 h1 h2 h3 h4 h5 h6 h7 h8 h9
  · unfold doLock; split
    · left; rfl
    · left; rfl
  · unfold doLookup; split
    · left; rfl
    · left; rfl
  · unfold doUnlock; split
    · left; rfl
    · left; rfl
  · left; rfl
  · left; rfl
  · unfold doLock; split
    · left; rfl
    · left; rfl
  · right; exact ⟨t, ht, by omega, rfl⟩
  · unfold doUnlock; split
    · left; rfl
    · left; rfl
  · unfold doUnlock; split
    · left; rfl
    · left; rfl
  · left; rfl
  · left; rfl

theorem stepThread_memo_f {α ε : Type} (cfg : Config α ε) (i : Nat) :
    (stepThread cfg i).memo.f = cfg.memo.f := by
  rcases stepThread_memo_shape cfg i with hm | ⟨t, _, _, hm⟩ <;> rw [hm]

theorem run_memo_f {α ε : Type} (cfg : Config α ε) (sched : List Nat) :
    (run cfg sched).memo.f = cfg.memo.f := by
  induction sched generalizing cfg with
  | nil => rfl
  | cons j rest ih => exact (ih (stepThread cfg j)).trans (stepThread_memo_f cfg j)

theorem pure_lookup_step {α ε : Type} {g : String → Res α ε} (cfg : Config α ε)
    (i : Nat) (k : String) (h : PureInv g cfg)
    (hl : lookup cfg.memo.cache k = some (g k)) :
    lookup (stepThread cfg i).memo.cache k = some (g k) := by
  rcases stepThread_memo_shape cfg i with hm | ⟨t, ht, hpc, hm⟩
  · rw [hm]; exact hl
  · rw [hm]
    show lookup (store cfg.memo.cache t.key t.res) k = some (g k)
    by_cases hk : t.key = k
    · subst hk
      rw [lookup_store_self]
      have hres : t.res = g t.key := (h.2.2 t (List.getElem?_mem ht)).2.1 hpc
      rw [hres]
    · rw [lookup_store_ne _ _ _ _ hk]
      exact hl

theorem pure_lookup_run {α ε : Type} {g : String → Res α ε} (cfg : Config α ε)
    (extra : List Nat) (k : String) (h : PureInv g cfg)
    (hl : lookup cfg.memo.cache k = some (g k)) :
    lookup (run cfg extra).memo.cache k = some (g k) := by
  induction extra generalizing cfg with
  | nil => exact hl
  | cons j rest ih =>
      exact ih (stepThread cfg j) (pureInv_step g cfg j h) (pure_lookup_step cfg j k h hl)

theorem stepThread_keyFrame {α ε : Type} (cfg : Config α ε) (i : Nat) (x : String)
    (hk : ∀ u ∈ cfg.threads, u.key ≠ x) :
    lookup (stepThread cfg i).memo.cache x = lookup cfg.memo.cache x ∧
    (∀ u ∈ (stepThread cfg i).threads, u.key ≠ x) := by
  constructor
  · rcases stepThread_memo_shape cfg i with hm | ⟨t, ht, _, hm⟩
    · rw [hm]
    · rw [hm]
      show lookup (store cfg.memo.cache t.key t.res) x = _
      exact lookup_store_ne _ _ _ _ (hk t (List.getElem?_mem ht))
  · rcases stepThread_threads_shape cfg i with hm | ⟨t, t', ht, hm, hkey⟩
    · rw [hm]; exact hk
    · rw [hm]
      intro u hu
      rcases List.mem_or_eq_of_mem_set hu with h1 | h1
      · exact hk u h1
      · subst h1
        rw [hkey]
        exact hk t (List.getElem?_mem ht)

theorem keyFrame_run {α ε : Type} (cfg : Config α ε) (sched : List Nat) (x : String)
    (hk : ∀ u ∈ cfg.threads, u.key ≠ x) :
    lookup (run cfg sched).memo.cache x = lookup cfg.memo.cache x := by
  induction sched generalizing cfg with
  | nil => rfl
  | cons j rest ih =>
      obtain ⟨h1, h2⟩ := stepThread_keyFrame cfg j x hk
      exact (ih (stepThread cfg j) h2).trans h1

/-- Claim C1, counterexample: two concurrent `Get "k"` calls on the same
fresh cache, interleaved so that both perform the locked lookup before
either stores (schedule `raceSched`), invoke the callback twice for `"k"`
— not exactly once. The source's own comment says "some URLs may be
fetched twice". -/
theorem C1_counterexample_callbackInvokedTwice :
    ((run (startConfig (New countFunc) ["k", "k"]) raceSched).log.count "k" = 2) ∧
    ¬ ((run (startConfig (New countFunc) ["k", "k"]) raceSched).log.count "k" = 1) :=
  ⟨rfl, by decide⟩

/-- Claim C1, amended: each of the `N` concurrent `Get` calls invokes the
callback at most once, so the callback runs at most `N` times under every
interleaving — but not exactly once (see the counterexample). -/
theorem C1_amended_atMostOneInvocationPerCall {α ε : Type} (m : Memo α ε)
    (keys : List String) (sched : List Nat) :
    (run (startConfig m keys) sched).log.length ≤ keys.length := by
  obtain ⟨hlen, hth⟩ := callInv_run (startConfig m keys) sched (callInv_start m keys)
  have hle := sum_le_length _ (fun u hu => (hth u hu).1)
  have hL : (run (startConfig m keys) sched).threads.length = keys.length := by
    simpa [startConfig] using run_threads_length (startConfig m keys) sched
  omega

set_option maxHeartbeats 1000000 in
/-- Claim C2, code bug: on both execution paths of `Get` — cache hit and
cache miss — the trailing unconditional `memo.mu.Unlock()` releases a mutex
that the same call has already released, which is the fatal
`sync: unlock of unlocked mutex` error, so a (sequentially executed) `Get`
always aborts and never returns: the acquisitions are not paired one-to-one
with releases. -/
theorem C2_bug_getAlwaysPanics {α ε : Type} (m : Memo α ε) (key : String) :
    (run (startConfig m [key]) seqSched).panicked = true ∧
    retOf (run (startConfig m [key]) seqSched) 0 = none := by
  rcases h : lookup m.cache key with _ | r <;>
    simp [run, seqSched, startConfig, mkThread, stepThread, getStep, retOf,
      doLock, doUnlock, doLookup, doBranch, doCall, doStore, doReturn,
      List.foldl, h]

/-- Claim C3, code bug: with `"x"` already cached at `(42, nil)`,
`Get "x"` does not invoke the callback again (the invocation log stays
empty) and leaves the cached pair intact, but it aborts on the trailing
double unlock instead of returning the stored pair. -/
theorem C3_bug_hitSkipsCallbackButAborts :
    (run (startConfig cachedMemo ["x"]) seqSched).log = [] ∧
    lookup (run (startConfig cachedMemo ["x"]) seqSched).memo.cache "x"
      = some ⟨some 42, none⟩ ∧
    (run (startConfig cachedMemo ["x"]) seqSched).panicked = true ∧
    retOf (run (startConfig cachedMemo ["x"]) seqSched) 0 = none :=
  ⟨rfl, rfl, rfl, rfl⟩

/-- Claim C4, code bug: on a fresh cache, `Get "x"` invokes the callback
exactly once and stores the produced pair at `"x"`, but aborts on the
trailing double unlock instead of returning that pair. -/
theorem C4_bug_missInvokesOnceStoresButAborts :
    (run (startConfig (New countFunc) ["x"]) seqSched).log = ["x"] ∧
    lookup (run (startConfig (New countFunc) ["x"]) seqSched).memo.cache "x"
      = some ⟨some 0, none⟩ ∧
    (run (startConfig (New countFunc) ["x"]) seqSched).panicked = true ∧
    retOf (run (startConfig (New countFunc) ["x"]) seqSched) 0 = none :=
  ⟨rfl, rfl, rfl, rfl⟩

/-- Claim C5, counterexample: four concurrent `Get "k"` calls under
schedule `stealSched` (exploiting that Go's mutex may be unlocked by any
goroutine, the trailing extra unlock lets threads 0 and 1 return) make
thread 0 return `(0, nil)` and thread 1 return `(1, nil)` — results of two
different callback invocations, not identical pairs. -/
theorem C5_counterexample_differentPairsReturned :
    retOf (run race4 stealSched) 0 = some ⟨some 0, none⟩ ∧
    retOf (run race4 stealSched) 1 = some ⟨some 1, none⟩ ∧
    (⟨some 0, none⟩ : Res Nat Nat) ≠ ⟨some 1, none⟩ :=
  ⟨rfl, rfl, by decide⟩

/-- Claim C5, amended: concurrent `Get` calls for the same key may observe
results of different callback invocations; when the callback is a pure
function of the key, any two calls for the same key that return normally
return the same pair. -/
theorem C5_amended_pureCallbackAgreement {α ε : Type} (g : String → Res α ε)
    (keys : List String) (sched : List Nat) (i j : Nat) (ri rj : Res α ε)
    (hi : retOf (run (startConfig (New (pureFunc g)) keys) sched) i = some ri)
    (hj : retOf (run (startConfig (New (pureFunc g)) keys) sched) j = some rj)
    (hk : keyOf (run (startConfig (New (pureFunc g)) keys) sched) i
        = keyOf (run (startConfig (New (pureFunc g)) keys) sched) j) :
    ri = rj := by
  obtain ⟨hf, hc, hth⟩ := pureInv_run g _ sched (pureInv_start g keys)
  unfold retOf at hi hj
  rcases Option.bind_eq_some.mp hi with ⟨ti, hti, hri⟩
  rcases Option.bind_eq_some.mp hj with ⟨tj, htj, hrj⟩
  have h1 : ri = g ti.key := (hth ti (List.getElem?_mem hti)).2.2 ri hri
  have h2 : rj = g tj.key := (hth tj (List.getElem?_mem htj)).2.2 rj hrj
  unfold keyOf at hk
  rw [hti, htj] at hk
  simp only [Option.map_some'] at hk
  obtain hkk : ti.key = tj.key := Option.some.inj hk
  rw [h1, h2, hkk]

/-- Concrete instance of the amended claim C5: with the pure callback
`const7`, threads 0 and 1 of the `stealSched` run both return and the
theorem yields that their pairs agree. -/
theorem C5_amended_pureCallbackAgreement_witness :
    retOf (run (startConfig (New (pureFunc const7)) ["k", "k", "k", "k"]) stealSched) 0
      = some ⟨some 7, none⟩ ∧
    (⟨some 7, none⟩ : Res Nat Nat) = ⟨some 7, none⟩ :=
  ⟨rfl, C5_amended_pureCallbackAgreement const7 ["k", "k", "k", "k"] stealSched 0 1
    ⟨some 7, none⟩ ⟨some 7, none⟩ rfl rfl rfl⟩

/-- Claim C6: in every reachable configuration, a thread whose next
statement is the callback invocation (pc 4) does not own the mutex — the
lock taken for the lookup was released at pc 2, before the callback, and
the lock for the store is only taken at pc 5, after the callback returns
(the ghost `owner` field records who performed the `Lock` in force). -/
theorem C6_mutexNotOwnedDuringCallback {α ε : Type} (m : Memo α ε)
    (keys : List String) (sched : List Nat) (i : Nat) (t : Thread α ε)
    (ht : (run (startConfig m keys) sched).threads[i]? = some t)
    (hpc : t.pc = 4) :
    (run (startConfig m keys) sched).owner ≠ some i := by
  intro hcon
  obtain ⟨h1, h2⟩ := lockInv_run (startConfig m keys) sched (lockInv_start m keys)
  obtain ⟨u, hu, hupc⟩ := h2 i hcon
  rw [ht] at hu
  obtain rfl : u = t := (Option.some.inj hu).symm
  rcases hupc with hh | hh | hh | hh <;> omega

/-- Concrete instance of claim C6: after the first four statements of a
single `Get "k"` the thread sits at the callback (pc 4) and does not own
the mutex. -/
theorem C6_mutexNotOwnedDuringCallback_witness :
    (run (startConfig (New countFunc) ["k"]) [0, 0, 0, 0]).owner ≠ some 0 :=
  C6_mutexNotOwnedDuringCallback (New countFunc) ["k"] [0, 0, 0, 0] 0
    ⟨"k", 4, ⟨none, none⟩, false, none, 0⟩ rfl rfl

/-- Claim C7, counterexample: under schedule `overwriteSched`, threads 0
and 1 both miss and both compute; thread 0 stores `(0, nil)` at `"k"`, and
three further steps later thread 1 overwrites it with `(1, nil)` — the
mapping for an already-mapped key is changed by a later operation. -/
theorem C7_counterexample_storedPairOverwritten :
    lookup (run race4 overwriteSched).memo.cache "k" = some ⟨some 0, none⟩ ∧
    lookup (run race4 (overwriteSched ++ [1, 1, 1])).memo.cache "k"
      = some ⟨some 1, none⟩ ∧
    (⟨some 0, none⟩ : Res Nat Nat) ≠ ⟨some 1, none⟩ :=
  ⟨rfl, rfl, by decide⟩

/-- Claim C7, amended: a racing duplicate computation may overwrite a key's
stored pair with a different invocation's result; when the callback is a
pure function of the key, the mapping is permanent and immutable — once a
key maps to a pair, it maps to that same pair after any further steps. -/
theorem C7_amended_pureMappingPermanent {α ε : Type} (g : String → Res α ε)
    (keys : List String) (sched extra : List Nat) (k : String) (r : Res α ε)
    (h : lookup (run (startConfig (New (pureFunc g)) keys) sched).memo.cache k
        = some r) :
    lookup (run (startConfig (New (pureFunc g)) keys) (sched ++ extra)).memo.cache k
      = some r := by
  have hinv := pureInv_run g _ sched (pureInv_start g keys)
  obtain rfl : r = g k := lookup_eq_of_forall hinv.2.1 h
  have hsplit : run (startConfig (New (pureFunc g)) keys) (sched ++ extra)
      = run (run (startConfig (New (pureFunc g)) keys) sched) extra := by
    unfold run
    exact List.foldl_append stepThread (startConfig (New (pureFunc g)) keys) sched extra
  rw [hsplit]
  exact pure_lookup_run _ extra k hinv h

/-- Concrete instance of the amended claim C7: after one `Get "k"` run the
cache maps `"k"` to `(7, nil)`, and it still does after ten further
scheduled steps. -/
theorem C7_amended_pureMappingPermanent_witness :
    lookup (run (startConfig (New (pureFunc const7)) ["k"]) seqSched).memo.cache "k"
      = some ⟨some 7, none⟩ ∧
    lookup (run (startConfig (New (pureFunc const7)) ["k"])
      (seqSched ++ seqSched)).memo.cache "k" = some ⟨some 7, none⟩ :=
  ⟨rfl, C7_amended_pureMappingPermanent const7 ["k"] seqSched seqSched "k"
    ⟨some 7, none⟩ rfl⟩

/-- Claim C8: `New f` has an empty cache and stores exactly the callback
`f`, and the stored callback is never modified by any schedule of `Get`
calls. -/
theorem C8_newEmptyAndCallbackFixed {α ε : Type} (f : Func α ε)
    (keys : List String) (sched : List Nat) :
    (New f).cache = [] ∧ (New f).f = f ∧
    (run (startConfig (New f) keys) sched).memo.f = f :=
  ⟨rfl, rfl, run_memo_f (startConfig (New f) keys) sched⟩

/-- Claim C9: a `Get key` call mutates the mapping at most at `key`: for
every other key the cache's binding (present or absent, and its pair) is
unchanged by the whole call, whatever the schedule. -/
theorem C9_getTouchesOnlyItsKey {α ε : Type} (m : Memo α ε)
    (key key' : String) (sched : List Nat) (hne : key' ≠ key) :
    lookup (run (startConfig m [key]) sched).memo.cache key'
      = lookup m.cache key' := by
  refine keyFrame_run (startConfig m [key]) sched key' ?_
  intro u hu
  have hu' : u = mkThread key := by simpa [startConfig] using hu
  rw [hu']
  exact fun hh => hne hh.symm

/-- Concrete instance of claim C9: a full `Get "x"` run leaves the binding
for `"y"` as it was (absent). -/
theorem C9_getTouchesOnlyItsKey_witness :
    lookup (run (startConfig (New countFunc) ["x"]) seqSched).memo.cache "y"
      = lookup (New countFunc).cache "y" :=
  C9_getTouchesOnlyItsKey (New countFunc) "x" "y" seqSched (by decide)

/-- Claim C10, code bug: a `(nil, nil)` pair is stored like any other (the
first `Get "x"` logs one invocation and maps `"x"` to `(none, none)`), and
a `Get "x"` against a cache already holding that pair does not re-invoke
the callback — presence is the map's membership flag, not nil-ness of the
value — but that second call aborts on the trailing double unlock instead
of returning `(nil, nil)`. -/
theorem C10_bug_nilPairMemoizedByMembershipButAborts :
    lookup (run (startConfig (New nilFunc) ["x"]) seqSched).memo.cache "x"
      = some ⟨none, none⟩ ∧
    (run (startConfig (New nilFunc) ["x"]) seqSched).log = ["x"] ∧
    (run (startConfig (⟨nilFunc, [("x", ⟨none, none⟩)]⟩ : Memo Nat Nat) ["x"])
      seqSched).log = [] ∧
    (run (startConfig (⟨nilFunc, [("x", ⟨none, none⟩)]⟩ : Memo Nat Nat) ["x"])
      seqSched).panicked = true ∧
    retOf (run (startConfig (⟨nilFunc, [("x", ⟨none, none⟩)]⟩ : Memo Nat Nat) ["x"])
      seqSched) 0 = none :=
  ⟨rfl, rfl, rfl, rfl, rfl⟩

end memo
